import Mathlib

/-!
Shallow embedding of the rule-extraction pipeline of the `logic_extractor`
repository (Supabase Edge Function `upload-documents/index.ts`, its
configuration `config.ts`, and the semantic cache
`upload-documents/extraction/cache.ts`), together with theorems settling
the frozen claims C1..C10 about it.

Modelling conventions:
* JavaScript strings are `List Char`; `String.prototype.trim` is `jsTrim`.
* JavaScript numbers carrying confidences/similarity scores are `ℚ`.
* External collaborators (OpenAI completion + embedding endpoints, the
  Upstash vector index, the LangChain text splitter, the PDF parser, the
  SHA-256 digests, the job-tracker write, and the Postgres row returned by
  an unordered `limit(1)` query) are oracle functions bundled in
  environments (`CacheEnv`, `Env`); each oracle's outcome type mirrors the
  exact set of cases the source distinguishes.
* The event-loop concurrency of the batch scheduler is sequentialised in
  batch order: every shared-counter increment in the source is a
  synchronous statement between awaits, so each interleaving produces the
  counter sequence of some batch completion order, and the model's
  per-batch outcomes depend on the counter only.
-/

namespace LogicExtractor

set_option maxRecDepth 200000

/-! ## JavaScript text primitives (on `List Char`) -/

/-- A JavaScript string, modelled as its character list. -/
abbrev Text := List Char

/-- Whitespace test used by `trim` and `\s`/`split(/\s+/)`. -/
def isWS (c : Char) : Bool := c.isWhitespace

/-- Drop a maximal trailing run of whitespace (the right half of `trim`). -/
def dropTrailWS : Text → Text
  | [] => []
  | c :: cs =>
    let r := dropTrailWS cs
    if r.isEmpty && isWS c then [] else c :: r

/-- `String.prototype.trim()`: strip leading and trailing whitespace. -/
def jsTrim (s : Text) : Text := dropTrailWS (s.dropWhile isWS)

/-- `\w` character class of the dedup regex `[^\w\s]`. -/
def isWordChar (c : Char) : Bool := c.isAlphanum || c == '_'

/-- `split(/\s+/)` restricted to its use in the dedup key: the JS split can
emit one leading empty-string element, but the caller filters words by
`length > 3`, so extracting maximal non-whitespace runs is equivalent. -/
def splitWS (s : Text) : List Text :=
  let step : Char → Text × List Text → Text × List Text := fun c acc =>
    if isWS c then
      if acc.1.isEmpty then ([], acc.2) else ([], acc.1 :: acc.2)
    else (c :: acc.1, acc.2)
  let out := s.foldr step ([], [])
  if out.1.isEmpty then out.2 else out.1 :: out.2

/-! ## Rule candidates and the Validator & Deduplicator
(`extractRulesFromText`, index.ts lines 798-841) -/

/-- `Math.min` on (non-NaN) numbers.  Written with `if` rather than
Mathlib's `min` so that concrete runs reduce; `ratMin_eq_min` bridges. -/
def ratMin (a b : ℚ) : ℚ := if a ≤ b then a else b

/-- `Math.max` on (non-NaN) numbers. -/
def ratMax (a b : ℚ) : ℚ := if a ≤ b then b else a

/-- `source` member of an extracted rule (`{ page, section }`); the column
name `source_sect` is reused because `section` is a Lean keyword. -/
structure SrcRef where
  page : Int
  sect : Option Text
deriving DecidableEq, Repr

/-- The `RuleExtracted` interface of index.ts.  The LLM may omit `source`,
which the source guards with `r.source?.page`; hence an `Option`. -/
structure RuleExtracted where
  text : Text
  conditions : List Text
  domain : Option Text
  tags : List Text
  confidence : ℚ
  source : Option SrcRef
deriving DecidableEq, Repr

/-- The `validatedRules` filter (index.ts lines 800-804):
`!r.text || r.text.trim().length < 10` and `r.confidence < 0.3` are
dropped. -/
def keepRule (r : RuleExtracted) : Bool :=
  if r.text.isEmpty then false
  else if (jsTrim r.text).length < 10 then false
  else if r.confidence < mkRat 3 10 then false
  else true

/-- `r.source?.page || 0` (index.ts line 812); `0 || 0 = 0`, so on a present
source this is the identity on the page number. -/
def pageOf : Option SrcRef → Int
  | none => 0
  | some s => s.page

/-- `r.source?.section || null` (index.ts line 813); the empty string is
falsy in JS and collapses to `null`. -/
def sectOf : Option SrcRef → Option Text
  | none => none
  | some s =>
    match s.sect with
    | none => none
    | some t => if t.isEmpty then none else some t

/-- The normalisation map of `validatedRules` (index.ts lines 806-815):
trim the text, cap tags at 8, clamp confidence into [0,1], default the
source fields. -/
def normalizeRule (r : RuleExtracted) : RuleExtracted :=
  { r with
    text := jsTrim r.text
    tags := r.tags.take 8
    confidence := ratMin 1 (ratMax 0 r.confidence)
    source := some ⟨pageOf r.source, sectOf r.source⟩ }

/-- The dedup key (index.ts lines 822-828): lowercase, strip `[^\w\s]`,
split on whitespace, keep words longer than 3 characters, take the first
15, join with single spaces. -/
def normalizeKey (t : Text) : Text :=
  let cleaned := (t.map Char.toLower).filter (fun c => isWordChar c || isWS c)
  let ws := (splitWS cleaned).filter (fun w => 3 < w.length)
  List.intercalate [' '] (ws.take 15)

/-- The O(n) dedup loop (index.ts lines 818-841): keep a rule iff the hash
of its normalised key was not seen before; `hash` stands for the SHA-256
hex digest, an arbitrary deterministic function here. -/
def dedupGo (hash : Text → Nat) (seen : List Nat) : List RuleExtracted → List RuleExtracted
  | [] => []
  | r :: rs =>
    if hash (normalizeKey r.text) ∈ seen then dedupGo hash seen rs
    else r :: dedupGo hash (hash (normalizeKey r.text) :: seen) rs

/-- The Validator & Deduplicator: `validatedRules` then `uniqueRules`
(index.ts lines 798-841). -/
def validateAndDedup (hash : Text → Nat) (candidates : List RuleExtracted) : List RuleExtracted :=
  dedupGo hash [] ((candidates.filter keepRule).map normalizeRule)

/-! ## Configuration (config.ts `CONFIG`) -/

def BATCH_SIZE : Nat := 4
def MAX_CONCURRENT_BATCHES : Nat := 3
def UPDATE_PROGRESS_EVERY_N_BATCHES : Nat := 1
def RETRY_DELAY_BASE_MS : Nat := 300
def RETRY_DELAY_MAX_MS : Nat := 8000
def RETRY_DELAY_SERVER_ERROR_MAX_MS : Nat := 3000
def MAX_EMBEDDING_CHARS : Nat := 8000

/-! ## LLM Extraction Client (`callOpenAIWithRetry`, index.ts lines 531-628) -/

/-- One attempt's externally observable outcome of the completion fetch,
one constructor per case the source distinguishes: HTTP error status;
`response.ok` with `choices[0].message.content` missing; content that fails
`JSON.parse`; parsed JSON without a `rules` array; a well-formed `rules`
array; a thrown fetch/transport exception. -/
inductive ApiResponse where
  | httpError (status : Nat)
  | noContent
  | badJson
  | noRulesArray
  | gotRules (rules : List RuleExtracted)
  | transportError
deriving DecidableEq, Repr

/-- Result of the retry loop: the returned rules, the number of completion
fetches made, and the backoff waits (ms) in the order they were slept. -/
structure RetryResult where
  rules : List RuleExtracted
  calls : Nat
  waits : List Nat
deriving DecidableEq, Repr

/-- The `for (attempt = 0; attempt < maxRetries; attempt++)` body of
`callOpenAIWithRetry`, with `fuel` the number of attempts left (so the
source's `attempt < maxRetries - 1` is `0 < fuel` after consuming the
current attempt).  The function never throws: the source's `catch` is the
`transportError` arm. -/
def retryGo (oracle : Nat → ApiResponse) : Nat → Nat → RetryResult
  | _, 0 => ⟨[], 0, []⟩
  | attempt, fuel + 1 =>
    match oracle attempt with
    | .gotRules rs => ⟨rs, 1, []⟩
    | .noRulesArray => ⟨[], 1, []⟩
    | .httpError s =>
      if s == 429 then
        let r := retryGo oracle (attempt + 1) fuel
        ⟨r.rules, r.calls + 1, min (2 ^ attempt * RETRY_DELAY_BASE_MS) RETRY_DELAY_MAX_MS :: r.waits⟩
      else if 500 ≤ s ∧ 0 < fuel then
        let r := retryGo oracle (attempt + 1) fuel
        ⟨r.rules, r.calls + 1,
          min (2 ^ attempt * RETRY_DELAY_BASE_MS) RETRY_DELAY_SERVER_ERROR_MAX_MS :: r.waits⟩
      else ⟨[], 1, []⟩
    | .noContent =>
      if 0 < fuel then
        let r := retryGo oracle (attempt + 1) fuel
        ⟨r.rules, r.calls + 1, RETRY_DELAY_BASE_MS :: r.waits⟩
      else ⟨[], 1, []⟩
    | .badJson =>
      if 0 < fuel then
        let r := retryGo oracle (attempt + 1) fuel
        ⟨r.rules, r.calls + 1, RETRY_DELAY_BASE_MS :: r.waits⟩
      else ⟨[], 1, []⟩
    | .transportError =>
      if 0 < fuel then
        let r := retryGo oracle (attempt + 1) fuel
        ⟨r.rules, r.calls + 1,
          min (2 ^ attempt * RETRY_DELAY_BASE_MS) RETRY_DELAY_SERVER_ERROR_MAX_MS :: r.waits⟩
      else ⟨[], 1, []⟩

/-- `callOpenAIWithRetry(apiKey, systemPrompt, userContent, batchId, maxRetries = 3)`;
the oracle gives each attempt's outcome. -/
def callOpenAIWithRetry (oracle : Nat → ApiResponse) : RetryResult :=
  retryGo oracle 0 3

/-! ## Semantic Cache (`getCachedRules`, cache.ts lines 133-213) -/

/-- An embedding vector. -/
abbrev Vec := List ℚ

/-- Outcome of `getEmbedding`'s fetch: a vector, a non-ok HTTP response
(`getEmbedding` returns null), or a thrown exception (caught inside
`getEmbedding`, which also returns null). -/
inductive EmbedOutcome where
  | ok (v : Vec)
  | httpError
  | threw

/-- One hit of the Upstash `query` call (`score` plus `metadata.rules`). -/
structure QueryHit where
  score : ℚ
  rules : List RuleExtracted
deriving DecidableEq, Repr

/-- Outcome of the vector-index `query` fetch: a hit list, a non-ok HTTP
response, or a thrown exception (caught by `getCachedRules`' outer catch). -/
inductive QueryOutcome where
  | ok (hits : List QueryHit)
  | httpError
  | threw

/-- External world of one `getCachedRules` call. -/
structure CacheEnv where
  available : Bool
  threshold : ℚ
  embed : Text → EmbedOutcome
  query : Vec → QueryOutcome

/-- `getCachedRules` (cache.ts lines 133-213): `none` is a miss.  Every
error arm of the source maps to `none`; no arm propagates an exception. -/
def getCachedRules (cenv : CacheEnv) (chunkText : Text) : Option (List RuleExtracted) :=
  if !cenv.available then none
  else
    match cenv.embed (chunkText.take MAX_EMBEDDING_CHARS) with
    | .httpError => none
    | .threw => none
    | .ok v =>
      match cenv.query v with
      | .httpError => none
      | .threw => none
      | .ok hits =>
        match hits with
        | [] => none
        | h0 :: _ => if h0.score < cenv.threshold then none else some h0.rules

/-- The error modes of a cache lookup claimed to fail open: the embedding
call fails or throws, or it succeeds and the vector query fails or throws. -/
def lookupErrored (cenv : CacheEnv) (chunkText : Text) : Prop :=
  (cenv.embed (chunkText.take MAX_EMBEDDING_CHARS) = .httpError ∨
    cenv.embed (chunkText.take MAX_EMBEDDING_CHARS) = .threw) ∨
  (∃ v, cenv.embed (chunkText.take MAX_EMBEDDING_CHARS) = .ok v ∧
    (cenv.query v = .httpError ∨ cenv.query v = .threw))

/-! ## Batch scheduler (`extractRulesFromText`, index.ts lines 641-876) -/

/-- Oracles for one extraction run.  Indices are batch positions in
completion order (which the sequentialised model equates with batch
order). -/
structure Env where
  /-- LangChain `RecursiveCharacterTextSplitter.splitText` (an npm
  dependency, external to the repository). -/
  splitText : Text → List Text
  /-- External world of each batch's `getCachedRules` call. -/
  cache : Nat → CacheEnv
  /-- Each batch's completion-fetch outcomes, per attempt. -/
  llm : Nat → Nat → ApiResponse
  /-- Whether each batch's job-tracker progress `update` resolves; `false`
  means the awaited write rejects (e.g. transport failure). -/
  progressOk : Nat → Bool
  /-- `parsePDF` text output (external parsing service / pdf-parse). -/
  parse : List Nat → Text
  /-- `calculateFileHash`: SHA-256 of the uploaded bytes. -/
  hashFile : List Nat → Nat
  /-- SHA-256 digest used by the dedup loop. -/
  hashKey : Text → Nat
  /-- Whether the exact-reuse `rules` select returns without error. -/
  rulesQueryOk : Bool
  /-- Which row the unordered `limit(1)` documents query returns, out of
  the matching ids; Postgres fixes no order, so this is an oracle. -/
  pick : List Nat → Option Nat

/-- `batches` construction (index.ts lines 718-724): slices of
`BATCH_SIZE` chunks, in order.  `fuel` starts at the list length, an upper
bound on the number of slices. -/
def toBatchesGo (k : Nat) : Nat → List Text → List (List Text)
  | 0, _ => []
  | _, [] => []
  | fuel + 1, l => l.take k :: toBatchesGo k fuel (l.drop k)

/-- Partition chunk texts into batches of `BATCH_SIZE`. -/
def toBatches (l : List Text) : List (List Text) :=
  toBatchesGo BATCH_SIZE l.length l

def chunkHeaderA : Text := "## Chunk ".toList
def chunkHeaderB : Text := "/".toList
def newlineText : Text := "\n".toList
def batchSep : Text := "\n\n---\n\n".toList

/-- The `userContent` of one batch (index.ts lines 745-747): numbered
chunk headers joined by a separator; `start` is the batch's first chunk
index (`batch.index`). -/
def mkUserContent (totalChunks start : Nat) (batch : List Text) : Text :=
  List.intercalate batchSep
    (batch.enum.map (fun jc =>
      chunkHeaderA ++ (Nat.repr (start + jc.1 + 1)).toList ++ chunkHeaderB ++
        (Nat.repr totalChunks).toList ++ newlineText ++ jc.2))

/-- The `userContent` of every batch, with `batch.index` stepping by
`BATCH_SIZE` (index.ts line 719). -/
def mkBatchTexts (totalChunks : Nat) : List (List Text) → Nat → List Text
  | [], _ => []
  | b :: bs, start => mkUserContent totalChunks start b :: mkBatchTexts totalChunks bs (start + BATCH_SIZE)

/-- Externally observable outcome of one batch promise (index.ts lines
744-790). -/
structure BatchOutcome where
  rules : List RuleExtracted
  llmCalls : Nat
  report : Option Nat
  processedAfter : Nat
deriving DecidableEq, Repr

/-- One batch promise: cache lookup, on miss the LLM client, then the
counter increment and the progress write.  The progress write is the only
awaited expression of the `try` block that can reject; when it does, the
`catch` increments `processedBatches` a second time and the batch returns
`[]`, so its extracted rules are discarded. -/
def processBatch (env : Env) (total idx p : Nat) (btext : Text) : BatchOutcome :=
  let hit := getCachedRules (env.cache idx) btext
  let rules := match hit with
    | some cached => cached
    | none => (callOpenAIWithRetry (env.llm idx)).rules
  let llmCalls := match hit with
    | some _ => 0
    | none => (callOpenAIWithRetry (env.llm idx)).calls
  let p1 := p + 1
  if p1 % UPDATE_PROGRESS_EVERY_N_BATCHES == 0 then
    let progress := 30 + 40 * p1 / total
    if env.progressOk idx then ⟨rules, llmCalls, some progress, p1⟩
    else ⟨[], llmCalls, none, p1 + 1⟩
  else ⟨rules, llmCalls, none, p1⟩

/-- Aggregate of the batch loop. -/
structure LoopResult where
  rules : List RuleExtracted
  llmCalls : Nat
  reports : List Nat
deriving DecidableEq, Repr

/-- The batch loop (index.ts lines 741-796), sequentialised in batch
order; `p` threads the shared `processedBatches` counter. -/
def extractLoop (env : Env) (total : Nat) : List Text → Nat → Nat → LoopResult
  | [], _, _ => ⟨[], 0, []⟩
  | b :: bs, idx, p =>
    let o := processBatch env total idx p b
    let rest := extractLoop env total bs (idx + 1) o.processedAfter
    ⟨o.rules ++ rest.rules, o.llmCalls + rest.llmCalls, o.report.toList ++ rest.reports⟩

/-- Externally observable result of `extractRulesFromText`. -/
structure ExtractResult where
  rules : List RuleExtracted
  llmCalls : Nat
  reports : List Nat
  batchCount : Nat
deriving DecidableEq, Repr

/-- `extractRulesFromText` (index.ts lines 641-876): chunk, batch, loop,
then validate and deduplicate. -/
def extractRulesFromText (env : Env) (text : Text) : ExtractResult :=
  let chunkTexts := env.splitText text
  let batches := toBatches chunkTexts
  let batchTexts := mkBatchTexts chunkTexts.length batches 0
  let L := extractLoop env batches.length batchTexts 0 0
  { rules := validateAndDedup env.hashKey L.rules
    llmCalls := L.llmCalls
    reports := L.reports
    batchCount := batches.length }

/-! ## Upload pipeline and exact reuse (index.ts lines 134-341) -/

inductive DocStatus where
  | queued
  | processing
  | done
  | errored
deriving DecidableEq, Repr

/-- A `documents` row (the columns the pipeline reads or writes; `pages`
and `summary` carry no claim and are omitted). -/
structure DocRow where
  id : Nat
  userId : Nat
  fileHash : Option Nat
  status : DocStatus
deriving DecidableEq, Repr

/-- A `rules` row (the columns the exact-reuse copy transfers; row id,
`document_name` and `created_at` are omitted). -/
structure RuleRow where
  docId : Nat
  text : Text
  conditions : List Text
  domain : Option Text
  tags : List Text
  confidence : ℚ
  sourcePage : Int
  sourceSect : Option Text
deriving DecidableEq, Repr

/-- The relational store. -/
structure DB where
  docs : List DocRow
  rules : List RuleRow
deriving DecidableEq, Repr

/-- One upload request (the background task's inputs: the fresh document
id, the authenticated user, the file bytes). -/
structure UploadReq where
  docId : Nat
  userId : Nat
  content : List Nat
deriving DecidableEq, Repr

/-- How one background run ended: exact reuse (source doc, copied count),
normal extraction, or the empty-text error path. -/
inductive UploadEvent where
  | reused (srcId copied : Nat)
  | extracted (res : ExtractResult)
  | failed
deriving DecidableEq, Repr

structure UploadResult where
  db : DB
  event : UploadEvent
  llmCalls : Nat
deriving DecidableEq, Repr

def setDocStatus (db : DB) (docId : Nat) (st : DocStatus) : DB :=
  { db with docs := db.docs.map (fun d => if d.id == docId then { d with status := st } else d) }

/-- `rules.select().eq('document_id', docId)`. -/
def rulesFor (db : DB) (docId : Nat) : List RuleRow :=
  db.rules.filter (fun r => r.docId == docId)

/-- The exact-reuse documents query (index.ts lines 163-170): same owner,
same hash, status done, excluding the current document. -/
def reuseMatches (db : DB) (uid h docId : Nat) : List Nat :=
  (db.docs.filter (fun d =>
    d.userId == uid && d.fileHash == some h && d.status == DocStatus.done && d.id != docId)).map
    (fun d => d.id)

/-- Mapping a validated rule onto a `rules` row (index.ts lines 273-283);
validated rules always carry a `source` object, so the defaults of
`pageOf`/`sectOf` are never exercised here. -/
def toRuleRow (docId : Nat) (r : RuleExtracted) : RuleRow :=
  { docId := docId
    text := r.text
    conditions := r.conditions
    domain := r.domain
    tags := r.tags.take 8
    confidence := r.confidence
    sourcePage := pageOf r.source
    sourceSect := match r.source with | some s => s.sect | none => none }

/-- The new document row plus its hash update (index.ts lines 92-152). -/
def insertNewDoc (env : Env) (db : DB) (req : UploadReq) : DB :=
  { db with docs := db.docs ++ [⟨req.docId, req.userId, some (env.hashFile req.content), .processing⟩] }

/-- The no-reuse continuation (index.ts lines 239-311): parse, reject
empty text, extract, insert the extracted rules, mark done. -/
def extractionPath (env : Env) (db : DB) (req : UploadReq) : UploadResult :=
  let text := env.parse req.content
  if (jsTrim text).isEmpty then ⟨setDocStatus db req.docId .errored, .failed, 0⟩
  else
    let res := extractRulesFromText env text
    let db1 := { db with rules := db.rules ++ res.rules.map (toRuleRow req.docId) }
    ⟨setDocStatus db1 req.docId .done, .extracted res, res.llmCalls⟩

/-- The background task of one upload (index.ts lines 134-341), with
`EXACT_REUSE_ENABLED` true (its config.ts default): insert the document,
hash it, attempt exact reuse, otherwise extract. -/
def processUpload (env : Env) (db : DB) (req : UploadReq) : UploadResult :=
  let h := env.hashFile req.content
  let db0 := insertNewDoc env db req
  match env.pick (reuseMatches db0 req.userId h req.docId) with
  | some srcId =>
    if env.rulesQueryOk then
      let src := rulesFor db0 srcId
      if 0 < src.length then
        let copied := src.map (fun r => { r with docId := req.docId })
        ⟨setDocStatus { db0 with rules := db0.rules ++ copied } req.docId .done,
          .reused srcId src.length, 0⟩
      else extractionPath env db0 req
    else extractionPath env db0 req
  | none => extractionPath env db0 req

/-- One upload of a run's trace. -/
structure TraceEntry where
  docId : Nat
  event : UploadEvent
  llmCalls : Nat
deriving DecidableEq, Repr

/-- Run a sequence of uploads against an evolving store. -/
def runUploads (env : Env) (db : DB) : List UploadReq → DB × List TraceEntry
  | [] => (db, [])
  | r :: rs =>
    let u := processUpload env db r
    let rest := runUploads env u.db rs
    (rest.1, ⟨r.docId, u.event, u.llmCalls⟩ :: rest.2)

/-- The reuse source named by an event, if any. -/
def reusedSource : UploadEvent → Option Nat
  | .reused s _ => some s
  | _ => none

/-- Hop count of C9's invariant: an originally extracted document is 0
hops from the source of truth; a document filled by exact reuse is one hop
further than the document it copied from. -/
def depthTable : List TraceEntry → List (Nat × Nat) → List (Nat × Nat)
  | [], acc => acc
  | e :: rest, acc =>
    match e.event with
    | .extracted _ => depthTable rest (acc ++ [(e.docId, 0)])
    | .reused src _ => depthTable rest (acc ++ [(e.docId, ((acc.lookup src).getD 0) + 1)])
    | .failed => depthTable rest acc

/-- Reuse-chain depth of a document in a trace. -/
def reuseDepth (trace : List TraceEntry) (docId : Nat) : Nat :=
  ((depthTable trace []).lookup docId).getD 0

/-! ## Concrete fixtures used by boundary instances, counterexamples and
witnesses -/

/-- A 9-character rule text. -/
def nineChars : Text := "abcdefghi".toList

/-- A 10-character rule text. -/
def tenChars : Text := "abcdefghij".toList

/-- A 40-character rule text (also used as a document text). -/
def longTxt : Text := "Payments must be made within thirty days".toList

/-- Candidate with 9-character text. -/
def cand9 : RuleExtracted := ⟨nineChars, [], none, [], mkRat 1 2, none⟩

/-- Candidate with 10-character text and confidence exactly 0.3. -/
def cand10 : RuleExtracted := ⟨tenChars, [], none, [], mkRat 3 10, none⟩

/-- Candidate with confidence 0.2999. -/
def candLow : RuleExtracted := ⟨longTxt, [], none, [], mkRat 2999 10000, none⟩

/-- Candidate with confidence 1.5. -/
def candHigh : RuleExtracted := ⟨longTxt, [], none, [], mkRat 3 2, none⟩

/-- Candidate with confidence -0.2. -/
def candNeg : RuleExtracted := ⟨longTxt, [], none, [], mkRat (-1) 5, none⟩

/-- A well-formed extracted rule. -/
def goodRule : RuleExtracted := ⟨longTxt, [], none, [], mkRat 9 10, none⟩

/-- A disabled cache world (`isCacheAvailable()` false): every lookup
misses without any embedding or vector call. -/
def offCache : CacheEnv := ⟨false, mkRat 93 100, fun _ => .threw, fun _ => .threw⟩

/-! ## General lemmas about the text primitives -/

theorem dropWhile_dropWhile (p : Char → Bool) (l : List Char) :
    (l.dropWhile p).dropWhile p = l.dropWhile p := by
  induction l with
  | nil => rfl
  | cons a l ih =>
    by_cases h : p a
    · simpa [List.dropWhile_cons, h] using ih
    · simp [List.dropWhile_cons, h]

theorem dropWhile_head_false (p : Char → Bool) (l : List Char) {c : Char} {cs : List Char}
    (h : l.dropWhile p = c :: cs) : p c = false := by
  induction l with
  | nil => simp at h
  | cons a l ih =>
    by_cases hp : p a
    · exact ih (by simpa [List.dropWhile_cons, hp] using h)
    · rw [List.dropWhile_cons, if_neg (by simp [hp])] at h
      cases h
      simpa using hp

theorem dropTrailWS_idem (l : Text) : dropTrailWS (dropTrailWS l) = dropTrailWS l := by
  induction l with
  | nil => rfl
  | cons c cs ih =>
    rw [dropTrailWS]
    by_cases h : (dropTrailWS cs).isEmpty ∧ isWS c = true
    · rw [if_pos (by simp [h.1, h.2])]
      rfl
    · rw [if_neg (by simpa using fun h1 h2 => h ⟨h1, h2⟩)]
      rw [dropTrailWS, ih]
      by_cases h1 : (dropTrailWS cs).isEmpty
      · have h2 : isWS c = false := by
          rcases Bool.eq_false_or_eq_true (isWS c) with ht | hf
          · exact absurd ⟨h1, ht⟩ h
          · exact hf
        simp [h1, h2]
      · simp [h1]

theorem jsTrim_idem (s : Text) : jsTrim (jsTrim s) = jsTrim s := by
  rw [jsTrim, jsTrim]
  have hdw : (dropTrailWS (s.dropWhile isWS)).dropWhile isWS = dropTrailWS (s.dropWhile isWS) := by
    cases hA : s.dropWhile isWS with
    | nil => rfl
    | cons c cs =>
      have hc : isWS c = false := dropWhile_head_false isWS s hA
      rw [dropTrailWS]
      by_cases h : (dropTrailWS cs).isEmpty ∧ isWS c = true
      · rw [if_pos (by simp [h.1, h.2])]
        rfl
      · rw [if_neg (by simpa using fun h1 h2 => h ⟨h1, h2⟩)]
        simp [List.dropWhile_cons, hc]
  rw [hdw, dropTrailWS_idem]

/-! ## Lemmas about the confidence clamp -/

theorem ratMin_eq_min (a b : ℚ) : ratMin a b = min a b := by rw [ratMin, min_def]

theorem ratMax_eq_max (a b : ℚ) : ratMax a b = max a b := by rw [ratMax, max_def]

theorem clamp_nonneg (c : ℚ) : 0 ≤ ratMin 1 (ratMax 0 c) := by
  rw [ratMin_eq_min, ratMax_eq_max]
  exact le_min (by norm_num) (le_max_left 0 c)

theorem clamp_le_one (c : ℚ) : ratMin 1 (ratMax 0 c) ≤ 1 := by
  rw [ratMin_eq_min]
  exact min_le_left 1 _

theorem clamp_idem (c : ℚ) :
    ratMin 1 (ratMax 0 (ratMin 1 (ratMax 0 c))) = ratMin 1 (ratMax 0 c) := by
  simp only [ratMin_eq_min, ratMax_eq_max]
  rw [max_eq_right (le_min (by norm_num) (le_max_left 0 c)),
    min_eq_right (min_le_left 1 _)]

theorem clamp_ge_threshold (c : ℚ) (h : mkRat 3 10 ≤ c) :
    mkRat 3 10 ≤ ratMin 1 (ratMax 0 c) := by
  rw [ratMin_eq_min, ratMax_eq_max]
  exact le_min (by decide) (le_trans h (le_max_right 0 c))

/-! ## Lemmas about the validation filter and normalisation -/

theorem keepRule_eq (r : RuleExtracted) :
    keepRule r =
      (decide (10 ≤ (jsTrim r.text).length) && decide (mkRat 3 10 ≤ r.confidence)) := by
  rw [keepRule]
  by_cases h1 : r.text.isEmpty
  · have : r.text = [] := by simpa using h1
    rw [if_pos h1]
    simp [this, jsTrim, dropTrailWS]
  · rw [if_neg h1]
    by_cases h2 : (jsTrim r.text).length < 10
    · rw [if_pos h2]
      simp [Nat.not_le.mpr h2]
    · rw [if_neg h2]
      by_cases h3 : r.confidence < mkRat 3 10
      · rw [if_pos h3]
        simp [not_le.mpr h3]
      · rw [if_neg h3]
        simp [Nat.not_lt.mp h2, not_lt.mp h3]

theorem keepRule_true_iff (r : RuleExtracted) :
    keepRule r = true ↔ 10 ≤ (jsTrim r.text).length ∧ mkRat 3 10 ≤ r.confidence := by
  rw [keepRule_eq]
  simp

theorem normalizeRule_text (r : RuleExtracted) : (normalizeRule r).text = jsTrim r.text := rfl

theorem sectOf_sectOf (p : Int) (o : Option SrcRef) : sectOf (some ⟨p, sectOf o⟩) = sectOf o := by
  cases o with
  | none => rfl
  | some s =>
    rcases s with ⟨q, sec⟩
    cases sec with
    | none => rfl
    | some t =>
      by_cases ht : t.isEmpty
      · simp [sectOf, ht]
      · simp [sectOf, ht]

theorem normalizeRule_idem (r : RuleExtracted) :
    normalizeRule (normalizeRule r) = normalizeRule r := by
  rw [normalizeRule, normalizeRule]
  simp only [jsTrim_idem, List.take_take, clamp_idem, sectOf_sectOf]
  rfl

theorem keepRule_normalizeRule (r : RuleExtracted) (h : keepRule r = true) :
    keepRule (normalizeRule r) = true := by
  rw [keepRule_true_iff] at h ⊢
  refine ⟨?_, ?_⟩
  · rw [normalizeRule_text, jsTrim_idem]
    exact h.1
  · exact clamp_ge_threshold _ h.2

/-! ## Lemmas about the dedup loop -/

theorem dedupGo_sublist (hash : Text → Nat) :
    ∀ (l : List RuleExtracted) (seen : List Nat), List.Sublist (dedupGo hash seen l) l := by
  intro l
  induction l with
  | nil => intro seen; simp [dedupGo]
  | cons r rs ih =>
    intro seen
    by_cases h : hash (normalizeKey r.text) ∈ seen
    · rw [dedupGo, if_pos h]
      exact (ih seen).cons r
    · rw [dedupGo, if_neg h]
      exact (ih _).cons₂ r

theorem dedupGo_idem (hash : Text → Nat) :
    ∀ (l : List RuleExtracted) (seen : List Nat),
      dedupGo hash seen (dedupGo hash seen l) = dedupGo hash seen l := by
  intro l
  induction l with
  | nil => intro seen; rfl
  | cons r rs ih =>
    intro seen
    by_cases h : hash (normalizeKey r.text) ∈ seen
    · rw [dedupGo, if_pos h, ih seen]
    · rw [dedupGo, if_neg h, dedupGo, if_neg h, ih]

theorem map_id_of_mem {α : Type} (f : α → α) :
    ∀ (l : List α), (∀ x ∈ l, f x = x) → l.map f = l := by
  intro l
  induction l with
  | nil => intro; rfl
  | cons a l ih =>
    intro h
    rw [List.map_cons, h a (List.mem_cons_self a l), ih (fun x hx => h x (List.mem_cons_of_mem a hx))]

/-- Every element of the validated-and-normalised list is a fixed point of
filtering and normalisation. -/
theorem mem_validated_fixed (xs : List RuleExtracted) (r : RuleExtracted)
    (hr : r ∈ (xs.filter keepRule).map normalizeRule) :
    keepRule r = true ∧ normalizeRule r = r := by
  obtain ⟨q, hq, rfl⟩ := List.mem_map.mp hr
  exact ⟨keepRule_normalizeRule q (List.mem_filter.mp hq).2, normalizeRule_idem q⟩

/-! ## Claims C4, C5, C6 -/

/-- Claim C4: the Validator & Deduplicator is idempotent — applied to its
own output it changes nothing, and in particular preserves the size. -/
theorem c4_validate_dedup_idempotent :
    ∀ (hash : Text → Nat) (xs : List RuleExtracted),
      validateAndDedup hash (validateAndDedup hash xs) = validateAndDedup hash xs ∧
      (validateAndDedup hash (validateAndDedup hash xs)).length =
        (validateAndDedup hash xs).length := by
  intro hash xs
  have heq : validateAndDedup hash (validateAndDedup hash xs) = validateAndDedup hash xs := by
    rw [validateAndDedup, validateAndDedup]
    have hfix : ∀ r ∈ dedupGo hash []
        (((xs.filter keepRule).map normalizeRule)),
        keepRule r = true ∧ normalizeRule r = r := by
      intro r hr
      exact mem_validated_fixed xs r
        ((dedupGo_sublist hash ((xs.filter keepRule).map normalizeRule) []).subset hr)
    rw [List.filter_eq_self.mpr (fun r hr => (hfix r hr).1),
      map_id_of_mem normalizeRule _ (fun r hr => (hfix r hr).2),
      dedupGo_idem]
  exact ⟨heq, by rw [heq]⟩

/-- Claim C5 counterexample: a candidate whose confidence is -0.2 (outside
[0,1]) has no corresponding output Rule at all — the validation filter
drops it before the clamp, so no output with confidence 0.0 exists. -/
theorem c5_counterexample :
    candNeg.confidence = mkRat (-1) 5 ∧ candNeg.confidence < 0 ∧
      validateAndDedup (fun _ => 0) [candNeg] = [] := by
  refine ⟨rfl, by decide, by decide⟩

/-- Claim C5 amended: every output Rule's confidence lies in [0,1], and a
kept candidate with confidence above 1 is clamped to 1 (input 1.5 yields
output 1.0); but a candidate with confidence -0.2 is dropped by the
minimum-confidence filter rather than clamped to 0.0. -/
theorem c5_amended :
    (∀ (hash : Text → Nat) (xs : List RuleExtracted) (r : RuleExtracted),
        r ∈ validateAndDedup hash xs → 0 ≤ r.confidence ∧ r.confidence ≤ 1) ∧
    validateAndDedup (fun _ => 0) [candHigh] =
      [⟨longTxt, [], none, [], 1, some ⟨0, none⟩⟩] ∧
    validateAndDedup (fun _ => 0) [candNeg] = [] := by
  refine ⟨?_, by decide, by decide⟩
  intro hash xs r hr
  rw [validateAndDedup] at hr
  obtain ⟨q, hq, rfl⟩ := List.mem_map.mp
    ((dedupGo_sublist hash ((xs.filter keepRule).map normalizeRule) []).subset hr)
  exact ⟨clamp_nonneg q.confidence, clamp_le_one q.confidence⟩

/-- Claim C5 amended witness: the confidence bound applied to the concrete
output produced from the 1.5-confidence candidate. -/
theorem c5_amended_witness :
    0 ≤ (RuleExtracted.mk longTxt [] none [] 1 (some ⟨0, none⟩)).confidence ∧
      (RuleExtracted.mk longTxt [] none [] 1 (some ⟨0, none⟩)).confidence ≤ 1 :=
  c5_amended.1 (fun _ => 0) [candHigh] _ (by decide)

/-- Claim C6: the validation filter keeps a candidate exactly when its
trimmed text has at least 10 characters and its confidence is at least
0.3; in particular a 9-character text is dropped, a 10-character text with
confidence 0.3 is kept, and confidence 0.2999 is dropped. -/
theorem c6_filter_boundary :
    (∀ r : RuleExtracted,
        keepRule r =
          (decide (10 ≤ (jsTrim r.text).length) && decide (mkRat 3 10 ≤ r.confidence))) ∧
    keepRule cand9 = false ∧ keepRule cand10 = true ∧ keepRule candLow = false := by
  refine ⟨keepRule_eq, by decide, by decide, by decide⟩

/-! ## Claims C2, C3 -/

/-- Claim C2: when every completion attempt returns HTTP 429, the client
makes exactly 3 network calls, sleeps `min(2^attempt * base, rateLimitMax)`
after each failed attempt (so each retry is preceded by such a wait), and
returns the empty rule list instead of throwing. -/
theorem c2_rate_limit_retry (oracle : Nat → ApiResponse)
    (h : ∀ n, oracle n = ApiResponse.httpError 429) :
    callOpenAIWithRetry oracle =
      ⟨[], 3,
        [min (2 ^ 0 * RETRY_DELAY_BASE_MS) RETRY_DELAY_MAX_MS,
         min (2 ^ 1 * RETRY_DELAY_BASE_MS) RETRY_DELAY_MAX_MS,
         min (2 ^ 2 * RETRY_DELAY_BASE_MS) RETRY_DELAY_MAX_MS]⟩ := by
  rw [callOpenAIWithRetry, retryGo, h 0]
  simp only [show ((429 : Nat) == 429) = true from rfl, if_true]
  rw [retryGo, h 1]
  simp only [show ((429 : Nat) == 429) = true from rfl, if_true]
  rw [retryGo, h 2]
  simp only [show ((429 : Nat) == 429) = true from rfl, if_true]
  rw [retryGo]

/-- Claim C2 witness: the theorem at the constant-429 oracle. -/
theorem c2_rate_limit_retry_witness :
    callOpenAIWithRetry (fun _ => ApiResponse.httpError 429) =
      ⟨[], 3,
        [min (2 ^ 0 * RETRY_DELAY_BASE_MS) RETRY_DELAY_MAX_MS,
         min (2 ^ 1 * RETRY_DELAY_BASE_MS) RETRY_DELAY_MAX_MS,
         min (2 ^ 2 * RETRY_DELAY_BASE_MS) RETRY_DELAY_MAX_MS]⟩ :=
  c2_rate_limit_retry (fun _ => ApiResponse.httpError 429) (fun _ => rfl)

/-- The retry loop always makes at least one completion call when given a
positive attempt budget. -/
theorem retryGo_calls_pos (oracle : Nat → ApiResponse) (a fuel : Nat) (hf : 0 < fuel) :
    1 ≤ (retryGo oracle a fuel).calls := by
  cases fuel with
  | zero => omega
  | succ fuel =>
    rw [retryGo]
    cases h : oracle a <;> simp only []
    · split
      · simp
      · split
        · simp
        · simp
    · split
      · simp
      · simp
    · split
      · simp
      · simp
    · simp
    · simp
    · split
      · simp
      · simp

/-- Claim C3: any lookup error (embedding failure or exception, or
vector-query failure or exception) makes the semantic-cache lookup return
a miss rather than propagate, and the batch then proceeds to LLM
extraction (at least one completion call is made). -/
theorem c3_cache_fail_open (env : Env) (total idx p : Nat) (btext : Text)
    (hfail : lookupErrored (env.cache idx) btext) :
    getCachedRules (env.cache idx) btext = none ∧
    (processBatch env total idx p btext).llmCalls = (callOpenAIWithRetry (env.llm idx)).calls ∧
    1 ≤ (processBatch env total idx p btext).llmCalls := by
  have hnone : getCachedRules (env.cache idx) btext = none := by
    rw [getCachedRules]
    cases hav : (env.cache idx).available
    · rfl
    · rcases hfail with he | ⟨v, hv, hq⟩
      · rcases he with he | he <;> simp [he]
      · rcases hq with hq | hq <;> simp [hv, hq]
  have hcalls : (processBatch env total idx p btext).llmCalls =
      (callOpenAIWithRetry (env.llm idx)).calls := by
    rw [processBatch, hnone]
    split
    · split
      · rfl
      · rfl
    · rfl
  refine ⟨hnone, hcalls, ?_⟩
  rw [hcalls]
  exact retryGo_calls_pos (env.llm idx) 0 3 (by omega)

/-- A cache world whose embedding call throws. -/
def throwingCache : CacheEnv := ⟨true, mkRat 93 100, fun _ => .threw, fun _ => .threw⟩

/-- An extraction environment whose cache lookups always throw. -/
def envCacheFail : Env :=
  ⟨fun t => [t], fun _ => throwingCache, fun _ _ => .gotRules [goodRule], fun _ => true,
   fun _ => longTxt, fun _ => 99, fun k => k.length, true, fun l => l.head?⟩

/-- Claim C3 witness: the theorem at a concrete environment whose
embedding call throws. -/
theorem c3_cache_fail_open_witness :
    getCachedRules (envCacheFail.cache 0) longTxt = none ∧
    (processBatch envCacheFail 1 0 0 longTxt).llmCalls =
      (callOpenAIWithRetry (envCacheFail.llm 0)).calls ∧
    1 ≤ (processBatch envCacheFail 1 0 0 longTxt).llmCalls :=
  c3_cache_fail_open envCacheFail 1 0 0 longTxt (Or.inl (Or.inr rfl))

/-! ## Claim C7: progress reports -/

theorem mkBatchTexts_length (totalChunks : Nat) :
    ∀ (bs : List (List Text)) (start : Nat), (mkBatchTexts totalChunks bs start).length = bs.length := by
  intro bs
  induction bs with
  | nil => intro start; rfl
  | cons b bs ih => intro start; rw [mkBatchTexts, List.length_cons, List.length_cons, ih]

theorem toBatches_ne_nil (l : List Text) (h : l ≠ []) : toBatches l ≠ [] := by
  cases l with
  | nil => exact absurd rfl h
  | cons c cs => simp [toBatches, toBatchesGo]

theorem processBatch_progressOk (env : Env) (total idx p : Nat) (b : Text)
    (hok : env.progressOk idx = true) :
    (processBatch env total idx p b).report = some (30 + 40 * (p + 1) / total) ∧
    (processBatch env total idx p b).processedAfter = p + 1 := by
  rw [processBatch]
  simp [UPDATE_PROGRESS_EVERY_N_BATCHES, Nat.mod_one, hok]

theorem extractLoop_reports (env : Env) (total : Nat)
    (hok : ∀ i, env.progressOk i = true) :
    ∀ (bs : List Text) (idx p : Nat),
      (extractLoop env total bs idx p).reports =
        (List.range bs.length).map (fun k => 30 + 40 * (p + k + 1) / total) := by
  intro bs
  induction bs with
  | nil => intro idx p; rfl
  | cons b bs ih =>
    intro idx p
    rw [extractLoop]
    have h1 := processBatch_progressOk env total idx p b (hok idx)
    simp only [h1.1, h1.2, ih (idx + 1) (p + 1), Option.toList_some, List.singleton_append]
    rw [List.length_cons, List.range_succ_eq_map, List.map_cons, List.map_map]
    have hfun : (fun k => 30 + 40 * ((p + 1) + k + 1) / total) =
        ((fun k => 30 + 40 * (p + k + 1) / total) ∘ Nat.succ) := by
      funext k
      have harg : (p + 1) + k + 1 = p + (k + 1) + 1 := by omega
      simp [Function.comp, harg]
    rw [hfun]

theorem progressFormula_chain (t n : Nat) :
    List.Chain' (· ≤ ·) ((List.range n).map (fun k => 30 + 40 * (k + 1) / t)) := by
  refine List.Pairwise.chain' ?_
  refine (List.pairwise_lt_range n).map _ ?_
  intro a b hab
  have h1 : 40 * (a + 1) ≤ 40 * (b + 1) := by omega
  have h2 := Nat.div_le_div_right (c := t) h1
  omega

theorem progressFormula_band (t k : Nat) (ht : 0 < t) (hk : k < t) :
    30 ≤ 30 + 40 * (k + 1) / t ∧ 30 + 40 * (k + 1) / t ≤ 70 := by
  refine ⟨Nat.le_add_right 30 _, ?_⟩
  have hle : 40 * (k + 1) ≤ 40 * t := Nat.mul_le_mul_left 40 hk
  have h1 := Nat.div_le_div_right (c := t) hle
  have h2 : 40 * t / t = 40 := Nat.mul_div_cancel 40 ht
  have h3 : 40 * (k + 1) / t ≤ 40 := le_trans h1 (le_of_eq h2)
  exact le_trans (Nat.add_le_add_left h3 30) (by omega)

theorem progressFormula_floor (t k : Nat) :
    30 + 40 * (k + 1) / t =
      ⌊(30 : ℚ) + (((k + 1 : Nat) : ℚ) / ((t : Nat) : ℚ)) * 40⌋₊ := by
  have hq0 : (0 : ℚ) ≤ (((40 * (k + 1) : Nat) : ℚ)) / ((t : Nat) : ℚ) := by positivity
  have harg : (((k + 1 : Nat) : ℚ) / ((t : Nat) : ℚ)) * 40 =
      ((40 * (k + 1) : Nat) : ℚ) / ((t : Nat) : ℚ) := by
    push_cast
    ring
  rw [harg, add_comm ((30 : ℚ)) _]
  have h30 : ((30 : Nat) : ℚ) = (30 : ℚ) := by norm_cast
  rw [← h30, Nat.floor_add_nat hq0 30, Nat.floor_div_nat, Nat.floor_natCast]
  exact Nat.add_comm 30 _

/-- Claim C7 (amended: no progress-update write fails during the run):
every reported progress value is `30 + floor((completed/total) * 40)` for
the completed-batch count at the moment of the report, the sequence of
reported values is non-decreasing, all values lie in [30, 70], and the
Nat-division formula agrees with the rational-floor formula of the claim. -/
theorem c7_progress_band (env : Env) (text : Text)
    (hne : env.splitText text ≠ [])
    (hok : ∀ i, env.progressOk i = true) :
    (extractRulesFromText env text).reports =
      (List.range (extractRulesFromText env text).batchCount).map
        (fun k => 30 + 40 * (k + 1) / (extractRulesFromText env text).batchCount) ∧
    List.Chain' (· ≤ ·) (extractRulesFromText env text).reports ∧
    (∀ x ∈ (extractRulesFromText env text).reports, 30 ≤ x ∧ x ≤ 70) ∧
    (∀ k, k < (extractRulesFromText env text).batchCount →
      30 + 40 * (k + 1) / (extractRulesFromText env text).batchCount =
        ⌊(30 : ℚ) + (((k + 1 : Nat) : ℚ) / ((extractRulesFromText env text).batchCount : ℚ)) * 40⌋₊) := by
  have htpos : 0 < (extractRulesFromText env text).batchCount :=
    List.length_pos.mpr (toBatches_ne_nil _ hne)
  have hrep : (extractRulesFromText env text).reports =
      (List.range (extractRulesFromText env text).batchCount).map
        (fun k => 30 + 40 * (k + 1) / (extractRulesFromText env text).batchCount) := by
    show (extractLoop env _ _ 0 0).reports = _
    rw [extractLoop_reports env _ hok, mkBatchTexts_length]
    simp only [Nat.zero_add]
    rfl
  refine ⟨hrep, ?_, ?_, ?_⟩
  · rw [hrep]
    exact progressFormula_chain _ _
  · intro x hx
    rw [hrep] at hx
    obtain ⟨k, hk, rfl⟩ := List.mem_map.mp hx
    exact progressFormula_band _ k htpos (List.mem_range.mp hk)
  · intro k _
    exact progressFormula_floor _ k

/-- Environment for the C7 witness: one chunk, one batch, rules extracted,
every progress write succeeding. -/
def env7 : Env :=
  ⟨fun t => [t], fun _ => offCache, fun _ _ => .gotRules [goodRule], fun _ => true,
   fun _ => longTxt, fun _ => 99, fun k => k.length, true, fun l => l.head?⟩

/-- Claim C7 witness: the amended claim at a concrete single-batch run. -/
theorem c7_progress_band_witness :
    (extractRulesFromText env7 longTxt).reports =
      (List.range (extractRulesFromText env7 longTxt).batchCount).map
        (fun k => 30 + 40 * (k + 1) / (extractRulesFromText env7 longTxt).batchCount) ∧
    List.Chain' (· ≤ ·) (extractRulesFromText env7 longTxt).reports ∧
    (∀ x ∈ (extractRulesFromText env7 longTxt).reports, 30 ≤ x ∧ x ≤ 70) ∧
    (∀ k, k < (extractRulesFromText env7 longTxt).batchCount →
      30 + 40 * (k + 1) / (extractRulesFromText env7 longTxt).batchCount =
        ⌊(30 : ℚ) + (((k + 1 : Nat) : ℚ) / ((extractRulesFromText env7 longTxt).batchCount : ℚ)) * 40⌋₊) :=
  c7_progress_band env7 longTxt (List.cons_ne_nil longTxt []) (fun _ => rfl)

/-- Environment for the C7/C8 failure scenarios: five identical chunks
(hence two batches), the LLM returning no rules, and the first batch's
progress write rejecting. -/
def env7b : Env :=
  ⟨fun t => [t, t, t, t, t], fun _ => offCache, fun _ _ => .gotRules [], fun i => i != 0,
   fun _ => longTxt, fun _ => 99, fun k => k.length, true, fun l => l.head?⟩

/-- Claim C7 counterexample: in a two-batch run whose first progress write
rejects, the surviving report is 90, outside the claimed band [30, 70]
(the rejected write's catch increments the completed counter a second
time, so batch 2 reports with counter 3 of total 2). -/
theorem c7_counterexample :
    (extractRulesFromText env7b longTxt).batchCount = 2 ∧
    (extractRulesFromText env7b longTxt).reports = [90] ∧ 70 < 90 := by
  refine ⟨by decide, by decide, by omega⟩

/-! ## Claim C8: progress writes are not isolated from extraction -/

/-- Single-batch environment whose LLM extraction succeeds with one rule
but whose job-tracker progress write rejects. -/
def env8 : Env :=
  ⟨fun t => [t], fun _ => offCache, fun _ _ => .gotRules [goodRule], fun _ => false,
   fun _ => longTxt, fun _ => 99, fun k => k.length, true, fun l => l.head?⟩

/-- Claim C8 evaluation at the failing input: the LLM client returned one
valid rule (one completion call was made), yet because the awaited
progress write rejected inside the batch's `try`, the `catch` returns `[]`
for the batch and double-increments the completed counter — the run's
aggregate rule list is empty and the batch's rules are lost, contradicting
the claim (and spec §4.2/§9, which require progress updates to be
best-effort and never to block extraction). -/
theorem c8_progress_failure_drops_rules :
    (callOpenAIWithRetry (env8.llm 0)).rules = [goodRule] ∧
    (processBatch env8 1 0 0 longTxt).rules = [] ∧
    (processBatch env8 1 0 0 longTxt).processedAfter = 2 ∧
    extractRulesFromText env8 longTxt =
      { rules := [], llmCalls := 1, reports := [], batchCount := 1 } := by
  refine ⟨by decide, by decide, by decide, by decide⟩

/-! ## Lemmas about the upload pipeline -/

theorem headPick_mem (l : List Nat) (x : Nat) (h : l.head? = some x) : x ∈ l := by
  cases l with
  | nil => simp at h
  | cons a t =>
    simp only [List.head?_cons, Option.some.injEq] at h
    rw [← h]
    exact List.mem_cons_self a t

theorem extractionPath_not_reused (env : Env) (db : DB) (req : UploadReq) (srcId n : Nat) :
    (extractionPath env db req).event ≠ .reused srcId n := by
  rw [extractionPath]
  split
  · simp
  · simp

theorem rulesFor_insertNewDoc (env : Env) (db : DB) (req : UploadReq) (i : Nat) :
    rulesFor (insertNewDoc env db req) i = rulesFor db i := rfl

theorem rulesFor_setDocStatus (db : DB) (i : Nat) (st : DocStatus) (j : Nat) :
    rulesFor (setDocStatus db i st) j = rulesFor db j := rfl

theorem reuseMatches_spec (db : DB) (uid h docId s : Nat)
    (hs : s ∈ reuseMatches db uid h docId) :
    ∃ d ∈ db.docs, d.id = s ∧ d.userId = uid ∧ d.fileHash = some h ∧
      d.status = .done ∧ d.id ≠ docId := by
  rw [reuseMatches] at hs
  obtain ⟨d, hd, rfl⟩ := List.mem_map.mp hs
  have hd' := List.mem_filter.mp hd
  refine ⟨d, hd'.1, rfl, ?_⟩
  have hb := hd'.2
  simp only [Bool.and_eq_true, beq_iff_eq, bne_iff_ne] at hb
  exact ⟨hb.1.1.1, hb.1.1.2, hb.1.2, hb.2⟩

theorem filter_docId_map_retarget (l : List RuleRow) (d : Nat) :
    ((l.map (fun r => { r with docId := d })).filter (fun r => r.docId == d)) =
      l.map (fun r => { r with docId := d }) := by
  rw [List.filter_eq_self]
  intro x hx
  obtain ⟨r, _, rfl⟩ := List.mem_map.mp hx
  simp

theorem rulesFor_append_retarget (dbR : List RuleRow) (src : List RuleRow) (d : Nat)
    (hfresh : dbR.filter (fun r => r.docId == d) = []) :
    (dbR ++ src.map (fun r : RuleRow => { r with docId := d })).filter (fun r => r.docId == d) =
      src.map (fun r : RuleRow => { r with docId := d }) := by
  rw [List.filter_append, hfresh, List.nil_append, filter_docId_map_retarget]

/-! ## Claims C1, C9, C10 -/

/-- Environment of the C1 counterexample and the C1/C10 witnesses: single
chunk per document, cache disabled, a valid LLM response carrying zero
rules, every prior-document query answered by the first matching row. -/
def env1 : Env :=
  ⟨fun t => [t], fun _ => offCache, fun _ _ => .gotRules [], fun _ => true,
   fun _ => longTxt, fun _ => 99, fun k => k.length, true, fun l => l.head?⟩

/-- Two uploads of byte-identical content by owner 7. -/
def reqs1 : List UploadReq := [⟨1, 7, [0]⟩, ⟨2, 7, [0]⟩]

/-- Claim C1 counterexample: the first upload completes with status done
(with zero stored rules, a reachable completed state), yet the second
upload of byte-identical content by the same owner performs a full
extraction with one completion-provider call instead of zero — the
`existingRules.length > 0` guard bypasses the reuse branch. -/
theorem c1_counterexample :
    ((runUploads env1 ⟨[], []⟩ reqs1).2.map (fun e => (e.docId, reusedSource e.event, e.llmCalls))) =
      [(1, none, 1), (2, none, 1)] ∧
    ((runUploads env1 ⟨[], []⟩ reqs1).1.docs.map (fun d => (d.id, d.fileHash, d.status))) =
      [(1, some 99, .done), (2, some 99, .done)] := by
  refine ⟨by decide, by decide⟩

/-- Claim C1 (amended: the matched prior document must hold at least one
stored rule and the rules query must succeed): the second upload then
short-circuits through exact reuse — a prior document matching owner,
hash, done status and excluding the current id is selected, zero
completion-provider calls are made, and the new document's rule rows are
exactly the source document's rows retargeted to the new document. -/
theorem c1_exact_reuse (env : Env) (db : DB) (req : UploadReq)
    (hpick₁ : ∀ l x, env.pick l = some x → x ∈ l)
    (hpick₂ : ∀ l, l ≠ [] → ∃ x, env.pick l = some x)
    (hq : env.rulesQueryOk = true)
    (hprior : reuseMatches (insertNewDoc env db req) req.userId (env.hashFile req.content) req.docId ≠ [])
    (hrules : ∀ s ∈ reuseMatches (insertNewDoc env db req) req.userId (env.hashFile req.content) req.docId,
      rulesFor db s ≠ [])
    (hfresh : rulesFor db req.docId = []) :
    ∃ srcId ∈ reuseMatches (insertNewDoc env db req) req.userId (env.hashFile req.content) req.docId,
      (processUpload env db req).event = .reused srcId (rulesFor db srcId).length ∧
      (processUpload env db req).llmCalls = 0 ∧
      rulesFor (processUpload env db req).db req.docId =
        (rulesFor db srcId).map (fun r => { r with docId := req.docId }) := by
  obtain ⟨srcId, hsome⟩ := hpick₂ _ hprior
  have hmem := hpick₁ _ _ hsome
  have hlen : 0 < (rulesFor (insertNewDoc env db req) srcId).length := by
    rw [rulesFor_insertNewDoc]
    exact List.length_pos.mpr (hrules srcId hmem)
  have heq : processUpload env db req =
      ⟨setDocStatus { insertNewDoc env db req with
          rules := (insertNewDoc env db req).rules ++
            (rulesFor (insertNewDoc env db req) srcId).map (fun r => { r with docId := req.docId }) }
          req.docId .done,
        .reused srcId (rulesFor (insertNewDoc env db req) srcId).length, 0⟩ := by
    rw [processUpload, hsome, hq]
    simp only [if_true]
    rw [if_pos hlen]
  refine ⟨srcId, hmem, ?_, ?_, ?_⟩
  · rw [heq]
    rfl
  · rw [heq]
  · rw [heq]
    exact rulesFor_append_retarget (insertNewDoc env db req).rules (rulesFor db srcId)
      req.docId hfresh

/-- Prior completed document of owner 7 with hash 99 and one stored rule. -/
def dbPrior : DB :=
  ⟨[⟨1, 7, some 99, .done⟩], [⟨1, longTxt, [], none, [], mkRat 9 10, 0, none⟩]⟩

/-- Prior completed document of owner 7 with hash 99 and zero stored rules. -/
def dbPriorNoRules : DB := ⟨[⟨1, 7, some 99, .done⟩], []⟩

/-- Second upload of the same bytes by owner 7. -/
def reqSecond : UploadReq := ⟨2, 7, [0]⟩

/-- Claim C1 witness: the amended claim at a concrete store holding a
completed document with one rule. -/
theorem c1_exact_reuse_witness :
    ∃ srcId ∈ reuseMatches (insertNewDoc env1 dbPrior reqSecond) reqSecond.userId
        (env1.hashFile reqSecond.content) reqSecond.docId,
      (processUpload env1 dbPrior reqSecond).event = .reused srcId (rulesFor dbPrior srcId).length ∧
      (processUpload env1 dbPrior reqSecond).llmCalls = 0 ∧
      rulesFor (processUpload env1 dbPrior reqSecond).db reqSecond.docId =
        (rulesFor dbPrior srcId).map (fun r => { r with docId := reqSecond.docId }) :=
  c1_exact_reuse env1 dbPrior reqSecond
    (fun l x h => headPick_mem l x h)
    (fun l hl => by
      cases l with
      | nil => exact absurd rfl hl
      | cons a t => exact ⟨a, rfl⟩)
    rfl (by decide) (by decide) (by decide)

/-- Environment of the C9 counterexample: as `env1`, but the LLM returns
one valid rule and the documents query returns the most recently inserted
matching row (one legal answer of the unordered `limit(1)` query). -/
def env9 : Env :=
  ⟨fun t => [t], fun _ => offCache, fun _ _ => .gotRules [goodRule], fun _ => true,
   fun _ => longTxt, fun _ => 99, fun k => k.length, true, fun l => l.getLast?⟩

/-- Four uploads of byte-identical content by owner 7. -/
def reqs9 : List UploadReq := [⟨1, 7, [0]⟩, ⟨2, 7, [0]⟩, ⟨3, 7, [0]⟩, ⟨4, 7, [0]⟩]

/-- Claim C9 counterexample: a reachable four-upload trace in which upload
2 reuses from the original document 1, upload 3 reuses from document 2,
and upload 4 reuses from document 3 — whose own rules are two reuse hops
away from the originally extracted document, contradicting the claimed
at-most-one-hop invariant.  The query constrains only owner, hash and
status, so nothing prevents the chain. -/
theorem c9_counterexample :
    ((runUploads env9 ⟨[], []⟩ reqs9).2.map (fun e => (e.docId, reusedSource e.event))) =
      [(1, none), (2, some 1), (3, some 2), (4, some 3)] ∧
    reuseDepth (runUploads env9 ⟨[], []⟩ reqs9).2 3 = 2 ∧
    1 < reuseDepth (runUploads env9 ⟨[], []⟩ reqs9).2 3 := by
  refine ⟨by decide, by decide, by decide⟩

/-- Claim C9 (amended): the selected exact-reuse source is only guaranteed
to be some document of the same owner with the same content hash and
status done, distinct from the current document — it need not be an
originally extracted document, and reuse chains of depth greater than one
hop are reachable (see the counterexample). -/
theorem c9_reuse_source_spec (env : Env) (db : DB) (req : UploadReq) (srcId n : Nat)
    (hpick : ∀ l x, env.pick l = some x → x ∈ l)
    (hev : (processUpload env db req).event = .reused srcId n) :
    ∃ d ∈ db.docs, d.id = srcId ∧ d.userId = req.userId ∧
      d.fileHash = some (env.hashFile req.content) ∧ d.status = .done ∧ d.id ≠ req.docId := by
  rw [processUpload] at hev
  cases hpk : env.pick (reuseMatches (insertNewDoc env db req) req.userId
      (env.hashFile req.content) req.docId) with
  | none =>
    rw [hpk] at hev
    exact absurd hev (extractionPath_not_reused env _ req srcId n)
  | some s =>
    rw [hpk] at hev
    cases hq2 : env.rulesQueryOk with
    | false =>
      rw [hq2] at hev
      simp only [Bool.false_eq_true, if_false] at hev
      exact absurd hev (extractionPath_not_reused env _ req srcId n)
    | true =>
      rw [hq2] at hev
      simp only [if_true] at hev
      by_cases hlen : 0 < (rulesFor (insertNewDoc env db req) s).length
      · rw [if_pos hlen] at hev
        simp only [UploadEvent.reused.injEq] at hev
        obtain ⟨rfl, -⟩ := hev
        obtain ⟨d, hd, hprops⟩ := reuseMatches_spec _ _ _ _ _ (hpick _ _ hpk)
        rcases List.mem_append.mp hd with hdb | hnew
        · exact ⟨d, hdb, hprops⟩
        · exfalso
          have : d = ⟨req.docId, req.userId, some (env.hashFile req.content), .processing⟩ := by
            simpa using hnew
          rw [this] at hprops
          exact hprops.2.2.2.2 rfl
      · rw [if_neg hlen] at hev
        exact absurd hev (extractionPath_not_reused env _ req srcId n)

/-- Claim C9 witness: the amended source description at a concrete reuse. -/
theorem c9_reuse_source_spec_witness :
    ∃ d ∈ dbPrior.docs, d.id = 1 ∧ d.userId = reqSecond.userId ∧
      d.fileHash = some (env1.hashFile reqSecond.content) ∧ d.status = .done ∧
      d.id ≠ reqSecond.docId :=
  c9_reuse_source_spec env1 dbPrior reqSecond 1 1
    (fun l x h => headPick_mem l x h) (by decide)

/-- Claim C10: when a prior document matches on owner, hash and done
status but the rules query errors or every matching document holds zero
rules, the pipeline does not copy anything and behaves exactly as the full
extraction path (chunking, scheduling, LLM extraction) on the new
document. -/
theorem c10_empty_prior_rules (env : Env) (db : DB) (req : UploadReq)
    (hpick : ∀ l x, env.pick l = some x → x ∈ l)
    (_hprior : reuseMatches (insertNewDoc env db req) req.userId (env.hashFile req.content) req.docId ≠ [])
    (hempty : env.rulesQueryOk = false ∨
      ∀ s ∈ reuseMatches (insertNewDoc env db req) req.userId (env.hashFile req.content) req.docId,
        rulesFor db s = []) :
    processUpload env db req = extractionPath env (insertNewDoc env db req) req ∧
    ((jsTrim (env.parse req.content)).isEmpty = false →
      (processUpload env db req).event = .extracted (extractRulesFromText env (env.parse req.content))) := by
  have hmain : processUpload env db req = extractionPath env (insertNewDoc env db req) req := by
    rw [processUpload]
    cases hpk : env.pick (reuseMatches (insertNewDoc env db req) req.userId
        (env.hashFile req.content) req.docId) with
    | none => rfl
    | some s =>
      rcases hempty with hqf | hze
      · rw [hqf]
        simp
      · cases hq2 : env.rulesQueryOk with
        | false => simp
        | true =>
          simp only [if_true]
          have : rulesFor (insertNewDoc env db req) s = [] := hze s (hpick _ _ hpk)
          rw [this]
          simp
  refine ⟨hmain, ?_⟩
  intro hT
  rw [hmain, extractionPath]
  rw [if_neg (by simp [hT])]

/-- Claim C10 witness: a prior done document with the same hash but no
rules; the second upload runs the full extraction path. -/
theorem c10_empty_prior_rules_witness :
    processUpload env1 dbPriorNoRules reqSecond =
      extractionPath env1 (insertNewDoc env1 dbPriorNoRules reqSecond) reqSecond ∧
    ((jsTrim (env1.parse reqSecond.content)).isEmpty = false →
      (processUpload env1 dbPriorNoRules reqSecond).event =
        .extracted (extractRulesFromText env1 (env1.parse reqSecond.content))) :=
  c10_empty_prior_rules env1 dbPriorNoRules reqSecond
    (fun l x h => headPick_mem l x h) (by decide) (Or.inr (by decide))

end LogicExtractor
